import Mathlib

/-!
Shallow embedding of the `Vector<T>` class from `src/vector.hpp` (a generic
owned numeric sequence with statistical reductions, order statistics with tie
reporting, structural mutation and elementary linear algebra).

The element type `T` is instantiated at `Int`, a faithful model of a signed
integer element type: `T()` is `0`, `T(1)` is `1`, and `+`, `-`, `*`, `/`
(C++ integer division truncates toward zero, as does `Int.div`, the `/` of
`Int`) and the comparisons are the integer operations.  The logical contents
of a vector (the `size_` elements stored behind the `entries` pointer) are
modelled as a `List Int`; operations that can throw return `Except VErr`,
and operations that mutate the stored sequence return the post-state
explicitly.
-/

/-- Error kinds mirroring the C++ exception types thrown in `vector.hpp`:
`std::out_of_range`, `std::invalid_argument`, `std::logic_error` (from
`mean`) and `std::length_error` (from `median`). -/
inductive VErr where
| outOfRange
| invalidArgument
| logicError
| lengthError
deriving DecidableEq, Repr

namespace Vec

/-- Model of `Vector<T>::sum`: `std::accumulate(entries, entries + size, T())`,
a left fold with `+` seeded at the zero value `T()`. -/
def sum (l : List Int) : Int :=
l.foldl (· + ·) 0

/-- Model of `Vector<T>::product`: `std::accumulate(entries, entries + size,
T(1), std::multiplies<>())`, a left fold with `*` seeded at `T(1)`. -/
def product (l : List Int) : Int :=
l.foldl (· * ·) 1

/-- Model of `Vector<T>::mean`: throws `std::logic_error` when `size_ == 0`,
otherwise returns `sum() / size_`. -/
def mean (l : List Int) : Except VErr Int :=
if l.length = 0 then .error .logicError else .ok (sum l / (l.length : Int))

/-- Specification of `std::nth_element(first, first + k, last)` acting on the
stored sequence `l`: the buffer afterwards holds a permutation `l'` of `l` in
which every element before position `k` is `≤` every element at position `k`
or later.  Every run of every conforming `nth_element` implementation
satisfies this relation. -/
def nthElemSpec (l : List Int) (k : Nat) (l' : List Int) : Prop :=
l'.Perm l ∧ ∀ i, i < k → ∀ j, j < l'.length → k ≤ j → l'.getD i 0 ≤ l'.getD j 0

instance (l : List Int) (k : Nat) (l' : List Int) :
    Decidable (nthElemSpec l k l') := by
unfold nthElemSpec
exact instDecidableAnd

/-- Model of `Vector<T>::median` as a relation from the pre-state `l` to the
returned value `out` and the post-state `post` of the stored sequence.  The
code throws `std::length_error` when the vector is empty; otherwise it calls
`std::nth_element(entries.get(), entries.get() + size_/2, entries.get() + size_)`
in place on its own storage (the method is `const`-qualified but writes
through the raw pointer), then returns the element at `size_/2` when the size
is odd, and the average of the elements at `size_/2 - 1` and `size_/2` when it
is even. -/
def medianRun (l : List Int) (out : Except VErr Int) (post : List Int) : Prop :=
if l.length = 0 then out = .error .lengthError ∧ post = l
else nthElemSpec l (l.length / 2) post ∧
  out = .ok (if l.length % 2 = 1 then post.getD (l.length / 2) 0
    else (post.getD (l.length / 2 - 1) 0 + post.getD (l.length / 2) 0) / 2)

/-- Result of `Vector<T>::max` / `Vector<T>::min`, whose C++ type is
`std::variant<T, std::vector<std::size_t>>`.  `single` holds the value put
into the `T` alternative — the code returns `std::distance(entries.get(), it)`
there, i.e. the *position* of the unique extremum converted to `T`.  `ties`
holds the `std::vector<std::size_t>` alternative, the list of all positions
attaining the extremum.  `ubRead` marks the execution that dereferences the
past-the-end iterator returned by `std::max_element`/`std::min_element` on an
empty range: the code has no emptiness guard and throws nothing there. -/
inductive ScanResult where
| ubRead
| single (posAsT : Int)
| ties (positions : List Nat)
deriving DecidableEq, Repr

/-- Test for the tie-set alternative of a `ScanResult`. -/
def ScanResult.isTies : ScanResult → Bool
| .ties _ => true
| _ => false

/-- Value found by `std::max_element` scanning the non-empty range
`x :: xs`. -/
def listMax (x : Int) (xs : List Int) : Int :=
xs.foldl max x

/-- Value found by `std::min_element` scanning the non-empty range
`x :: xs`. -/
def listMin (x : Int) (xs : List Int) : Int :=
xs.foldl min x

/-- Positions of the stored sequence `l` holding the value `m`, in increasing
order — the index vector built by the tie-collecting loop of
`Vector<T>::max`/`min`. -/
def tiePositions (l : List Int) (m : Int) : List Nat :=
(List.range l.length).filter (fun i => l.getD i 0 == m)

/-- Model of `Vector<T>::max`: `std::max_element` over the stored range, then
`std::count` of the extremum; a single occurrence returns
`std::distance(entries.get(), max_it)` (the index of the first — hence only —
occurrence, converted to `T`), several occurrences return the index list.  On
an empty vector the code dereferences the past-the-end iterator (`ubRead`). -/
def vmax (l : List Int) : ScanResult :=
match l with
| [] => .ubRead
| x :: xs =>
  if (x :: xs).count (listMax x xs) = 1
  then .single (Int.ofNat ((x :: xs).indexOf (listMax x xs)))
  else .ties (tiePositions (x :: xs) (listMax x xs))

/-- Model of `Vector<T>::min`, symmetric to `vmax` with `std::min_element`. -/
def vmin (l : List Int) : ScanResult :=
match l with
| [] => .ubRead
| x :: xs =>
  if (x :: xs).count (listMin x xs) = 1
  then .single (Int.ofNat ((x :: xs).indexOf (listMin x xs)))
  else .ties (tiePositions (x :: xs) (listMin x xs))

/-- Model of `Vector<T>::resize(size, default_value)`: a no-op when the new
size equals the current one; otherwise a fresh buffer of the new size is
allocated, the first `min(size_, size)` elements are copied over
(`std::copy`), and the remaining slots are filled with the default value
(`std::fill`). -/
def resize (l : List Int) (n : Nat) (fill : Int) : List Int :=
if n = l.length then l else l.take n ++ List.replicate (n - l.length) fill

/-- Effect on the contents of `std::move_backward(entries + pos,
entries + size_ - 1, entries + size_)` as issued by `Vector<T>::insert` right
after growing the buffer by one: the elements formerly at positions
`[pos, size_ - 1)` move one slot to the right, positions `[0, pos]` keep
their values. -/
def shiftRightOne (g : List Int) (pos : Nat) : List Int :=
g.take (pos + 1) ++ (g.drop pos).take (g.length - 1 - pos)

/-- Model of `Vector<T>::insert(pos, value)`: throws `std::out_of_range` when
`pos > size()`; otherwise `resize(size_ + 1, T())`, `std::move_backward` of
the tail, then `entries[pos] = value`. -/
def insert1 (l : List Int) (pos : Nat) (v : Int) : Except VErr (List Int) :=
if pos > l.length then .error .outOfRange
else .ok ((shiftRightOne (resize l (l.length + 1) 0) pos).set pos v)

/-- Effect on the contents of `std::move(begin() + pos + 1, end(),
begin() + pos)` as issued by `Vector<T>::erase(pos)`: the elements at
positions `[pos + 1, size_)` move one slot to the left; the final slot keeps
its (now moved-from) value until the following `resize` truncates it. -/
def shiftLeftOne (l : List Int) (pos : Nat) : List Int :=
l.take pos ++ l.drop (pos + 1) ++ l.drop (l.length - 1)

/-- Model of `Vector<T>::erase(pos)`: throws `std::out_of_range` when
`pos >= size()`; otherwise `std::move` shifts the tail left by one and
`resize(size() - 1, T())` drops the last slot. -/
def erase1 (l : List Int) (pos : Nat) : Except VErr (List Int) :=
if pos ≥ l.length then .error .outOfRange
else .ok (resize (shiftLeftOne l pos) (l.length - 1) 0)

/-- Model of `Vector<T>::operator[]` (the `const` and non-`const` overloads
have the same guard): throws `std::out_of_range` only when `i > size()`, and
otherwise returns `entries[i]` — so at `i = size()` no exception is raised
and the code reads the slot one past the end of the buffer, modelled by the
`.ok none` outcome of `List.get?`. -/
def index (l : List Int) (i : Nat) : Except VErr (Option Int) :=
if i > l.length then .error .outOfRange else .ok (l.get? i)

/-- Model of `Vector<T>::operator+`: throws `std::invalid_argument` when the
sizes differ, before touching either operand; otherwise `std::transform`
writes the elementwise sums back into the left operand's own storage and the
method returns `*this` (a reference to the mutated left operand).  The value
returned here is the status paired with the post-states of the left and right
operands; the C++ return value is exactly the first list of the pair. -/
def addOp (a b : List Int) : Except VErr Unit × List Int × List Int :=
if a.length ≠ b.length then (.error .invalidArgument, a, b)
else (.ok (), List.zipWith (· + ·) a b, b)

/-- Model of `Vector<T>::operator-`, identical to `addOp` with elementwise
differences written into the left operand's storage. -/
def subOp (a b : List Int) : Except VErr Unit × List Int × List Int :=
if a.length ≠ b.length then (.error .invalidArgument, a, b)
else (.ok (), List.zipWith (· - ·) a b, b)

/-- Model of the free function `cross_product(lhs, rhs)`: throws
`std::invalid_argument` when the sizes differ or the size is below 3;
otherwise builds `w` of the same size with the standard 3-D formula for the
first three components and the cyclic pattern
`lhs[(i+1) % n] * rhs[(i+2) % n] - lhs[(i+2) % n] * rhs[(i+1) % n]` for every
component at index `i ≥ 3`. -/
def crossProd (lhs rhs : List Int) : Except VErr (List Int) :=
if lhs.length ≠ rhs.length ∨ lhs.length < 3 then .error .invalidArgument
else
  .ok ((List.range lhs.length).map (fun i =>
    if i = 0 then lhs.getD 1 0 * rhs.getD 2 0 - lhs.getD 2 0 * rhs.getD 1 0
    else if i = 1 then lhs.getD 2 0 * rhs.getD 0 0 - lhs.getD 0 0 * rhs.getD 2 0
    else if i = 2 then lhs.getD 0 0 * rhs.getD 1 0 - lhs.getD 1 0 * rhs.getD 0 0
    else lhs.getD ((i + 1) % lhs.length) 0 * rhs.getD ((i + 2) % rhs.length) 0 -
      lhs.getD ((i + 2) % lhs.length) 0 * rhs.getD ((i + 1) % rhs.length) 0))

/-- Raw state of a `Vector<T>` object: the tracked logical size `size_` and
the owned buffer behind the `entries` pointer, `none` modelling a null
`std::unique_ptr`. -/
structure VecRaw where
  size_ : Nat
  entries : Option (List Int)
deriving DecidableEq, Repr

/-- Model of the move constructor `Vector<T>::Vector(Vector&&)`: the member
initializer list copies `other.size_` and moves `other.entries` (which nulls
the source's `unique_ptr`); the body is empty, so `other.size_` is never
reset.  The result is the pair (newly constructed vector, source after the
move). -/
def moveCtor (other : VecRaw) : VecRaw × VecRaw :=
(⟨other.size_, other.entries⟩, ⟨other.size_, none⟩)

/-- State of a `Vector<T>` object as seen by `operator==`: the stored
contents together with the address of the owned buffer (`none` models a null
`unique_ptr`).  Two live vectors with allocated buffers always have distinct
addresses, since each exclusively owns its allocation. -/
structure CVec where
  data : List Int
  addr : Option Nat
deriving DecidableEq, Repr

/-- Model of `Vector<T>::operator==`: `entries == other.entries`, i.e.
`std::unique_ptr` comparison of the stored buffer addresses — storage
identity, not contents. -/
def eqOp (a b : CVec) : Bool :=
a.addr == b.addr

/-- Model of `Vector<T>::operator!=`: `entries != other.entries`. -/
def neOp (a b : CVec) : Bool :=
!(a.addr == b.addr)

/-- Structural equality of two vectors as the spec's corrected contract
words it: same size and equal element values at every position.  Stated from
the spec, for comparison with `eqOp`, the operator the code implements. -/
def structEq (a b : CVec) : Bool :=
a.data == b.data

/-! Helper lemmas about the extremum scan. -/

theorem seed_le_listMax (x : Int) (xs : List Int) : x ≤ listMax x xs := by
induction xs generalizing x with
| nil => exact le_refl x
| cons y ys ih =>
  have h1 : x ≤ max x y := le_max_left x y
  have h2 : max x y ≤ listMax (max x y) ys := ih (max x y)
  exact le_trans h1 (by simpa [listMax] using h2)

theorem listMax_mem (x : Int) (xs : List Int) : listMax x xs ∈ x :: xs := by
induction xs generalizing x with
| nil => simp [listMax]
| cons y ys ih =>
  have h := ih (max x y)
  rcases List.mem_cons.mp h with h1 | h1
  · rcases max_choice x y with hm | hm
    · simp only [listMax, List.foldl_cons] at *
      rw [h1, hm]
      exact List.mem_cons_self x (y :: ys)
    · simp only [listMax, List.foldl_cons] at *
      rw [h1, hm]
      exact List.mem_cons_of_mem x (List.mem_cons_self y ys)
  · simp only [listMax, List.foldl_cons]
    exact List.mem_cons_of_mem x (List.mem_cons_of_mem y h1)

theorem le_listMax (x : Int) (xs : List Int) :
    ∀ y ∈ x :: xs, y ≤ listMax x xs := by
induction xs generalizing x with
| nil =>
  intro y hy
  rcases List.mem_cons.mp hy with h | h
  · exact le_of_eq h
  · cases h
| cons z zs ih =>
  intro y hy
  have hseed : max x z ≤ listMax (max x z) zs := seed_le_listMax (max x z) zs
  have hgoal : listMax x (z :: zs) = listMax (max x z) zs := by
    simp [listMax]
  rcases List.mem_cons.mp hy with h | h
  · rw [hgoal, h]
    exact le_trans (le_max_left x z) hseed
  · rcases List.mem_cons.mp h with h2 | h2
    · rw [hgoal, h2]
      exact le_trans (le_max_right x z) hseed
    · rw [hgoal]
      exact ih (max x z) y (List.mem_cons_of_mem (max x z) h2)

theorem listMin_mem (x : Int) (xs : List Int) : listMin x xs ∈ x :: xs := by
induction xs generalizing x with
| nil => simp [listMin]
| cons y ys ih =>
  have h := ih (min x y)
  rcases List.mem_cons.mp h with h1 | h1
  · rcases min_choice x y with hm | hm
    · simp only [listMin, List.foldl_cons] at *
      rw [h1, hm]
      exact List.mem_cons_self x (y :: ys)
    · simp only [listMin, List.foldl_cons] at *
      rw [h1, hm]
      exact List.mem_cons_of_mem x (List.mem_cons_self y ys)
  · simp only [listMin, List.foldl_cons]
    exact List.mem_cons_of_mem x (List.mem_cons_of_mem y h1)

theorem listMin_seed_le (x : Int) (xs : List Int) : listMin x xs ≤ x := by
induction xs generalizing x with
| nil => exact le_refl x
| cons y ys ih =>
  have h2 : listMin (min x y) ys ≤ min x y := ih (min x y)
  have h1 : min x y ≤ x := min_le_left x y
  exact le_trans (by simpa [listMin] using h2) h1

theorem listMin_le (x : Int) (xs : List Int) :
    ∀ y ∈ x :: xs, listMin x xs ≤ y := by
induction xs generalizing x with
| nil =>
  intro y hy
  rcases List.mem_cons.mp hy with h | h
  · exact le_of_eq h.symm
  · cases h
| cons z zs ih =>
  intro y hy
  have hseed : listMin (min x z) zs ≤ min x z := listMin_seed_le (min x z) zs
  have hgoal : listMin x (z :: zs) = listMin (min x z) zs := by
    simp [listMin]
  rcases List.mem_cons.mp hy with h | h
  · rw [hgoal, h]
    exact le_trans hseed (min_le_left x z)
  · rcases List.mem_cons.mp h with h2 | h2
    · rw [hgoal, h2]
      exact le_trans hseed (min_le_right x z)
    · rw [hgoal]
      exact ih (min x z) y (List.mem_cons_of_mem (min x z) h2)

theorem mem_tiePositions (l : List Int) (m : Int) (i : Nat) :
    i ∈ tiePositions l m ↔ i < l.length ∧ l.getD i 0 = m := by
unfold tiePositions
rw [List.mem_filter, List.mem_range]
simp

theorem tiePositions_sorted (l : List Int) (m : Int) :
    (tiePositions l m).Sorted (· < ·) := by
have h1 : List.Sublist (tiePositions l m) (List.range l.length) :=
  List.filter_sublist _
exact List.Pairwise.sublist h1 (List.sorted_lt_range l.length)

/-- C1: the claim states structural equality (same size, same values at every
position, independent of storage identity) as the contract of the vector's
equality operators.  The code instead compares the addresses of the owned
buffers: here the two vectors hold the identical one-element contents in two
distinct allocations, they are structurally equal, yet the code's
equality returns false and its inequality returns true. -/
theorem eqOp_is_identity_not_structural :
    structEq ⟨[1], some 0⟩ ⟨[1], some 1⟩ = true ∧
    (CVec.mk [1] (some 0)).data.length = (CVec.mk [1] (some 1)).data.length ∧
    eqOp ⟨[1], some 0⟩ ⟨[1], some 1⟩ = false ∧
    neOp ⟨[1], some 0⟩ ⟨[1], some 1⟩ = true := by
exact ⟨rfl, rfl, rfl, rfl⟩

/-- C3: the claim states that after move construction the source is empty
(size 0, no storage).  Evaluating the modelled move constructor on a source
of size 1 holding the single element 7: the new vector does receive the old
size and contents and the source's storage is nulled, but the source's
tracked size stays 1 — the constructor never resets the moved-from
vector's size field, so the source is not empty in the claimed sense. -/
theorem moveCtor_stale_source_size :
    (moveCtor ⟨1, some [7]⟩).1 = ⟨1, some [7]⟩ ∧
    (moveCtor ⟨1, some [7]⟩).2.entries = none ∧
    (moveCtor ⟨1, some [7]⟩).2.size_ = 1 ∧
    ¬ (moveCtor ⟨1, some [7]⟩).2.size_ = 0 := by
refine ⟨rfl, rfl, rfl, ?_⟩
simp [moveCtor]

/-- C4: the claim states that max() and min() on an empty vector fail with an
error.  The code has no emptiness guard: on a size-0 vector it dereferences
the past-the-end iterator returned by the element scan — the run modelled by
the ubRead outcome — and throws nothing. -/
theorem max_min_empty_unguarded :
    vmax [] = .ubRead ∧ vmin [] = .ubRead := by
exact ⟨rfl, rfl⟩

/-- C5: the claim states that indexing fails with an out-of-range error
whenever the index is at least the size.  The code's guard is written with a
strict greater-than, so on the vector [10, 20, 30] the index 3 (equal to the
size) raises no error and reads one slot past the end of the buffer (the
.ok none outcome); only the index 4 is rejected, while indexing below the
size returns the stored element as the claim says. -/
theorem index_guard_off_by_one :
    index [10, 20, 30] 3 = .ok none ∧
    index [10, 20, 30] 4 = .error .outOfRange ∧
    index [10, 20, 30] 2 = .ok (some 30) ∧
    index [10, 20, 30] 0 = .ok (some 10) := by
exact ⟨rfl, rfl, rfl, rfl⟩

/-- C10: on a size-0 vector sum() returns the zero value T() and product()
returns the multiplicative unit T(1), and neither reports an error, while
mean() fails with std::logic_error and every run of median() fails with
std::length_error. -/
theorem sum_product_empty_identities :
    sum [] = 0 ∧ product [] = 1 ∧
    mean [] = .error .logicError ∧
    medianRun [] (.error .lengthError) [] ∧
    (∀ (out : Except VErr Int) (post : List Int),
      medianRun [] out post → out = .error .lengthError ∧ post = []) := by
refine ⟨rfl, rfl, rfl, ?_, ?_⟩
· simp [medianRun]
· intro out post h
  simpa [medianRun] using h

/-- Witness for C10, applying the universally quantified part of the theorem
at the run exhibited by its fourth conjunct. -/
theorem sum_product_empty_identities_witness :
    (Except.error VErr.lengthError : Except VErr Int) = .error .lengthError ∧
    ([] : List Int) = [] :=
sum_product_empty_identities.2.2.2.2 (.error .lengthError) []
  sum_product_empty_identities.2.2.2.1

/-- C2: the claim states that every non-structural operation — median among
them — leaves the element sequence unchanged.  median() runs
std::nth_element in place on the vector's own storage: on the pre-state
[2, 1] a conforming run exists (and returns 1), and every conforming run
necessarily leaves the stored sequence equal to [1, 2], never to the original
[2, 1]. -/
theorem median_mutates_state :
    medianRun [2, 1] (.ok 1) [1, 2] ∧
    (∀ (out : Except VErr Int) (post : List Int),
      medianRun [2, 1] out post → post = [1, 2] ∧ post ≠ [2, 1]) := by
constructor
· simp only [medianRun]
  norm_num
  exact ⟨by decide, by decide⟩
· intro out post h
  simp only [medianRun] at h
  norm_num at h
  obtain ⟨⟨hperm, hord⟩, -⟩ := h
  have hlen : post.length = 2 := by
    have := hperm.length_eq
    simpa using this
  match post, hlen with
  | [a, b], _ =>
    have hmem2 : (2 : Int) ∈ [a, b] := hperm.mem_iff.mpr (by simp)
    have hmem1 : (1 : Int) ∈ [a, b] := hperm.mem_iff.mpr (by simp)
    have hab : a ≤ b := by
      have := hord 0 (by norm_num) 1 (by simp) (le_refl 1)
      simpa [List.getD] using this
    simp only [List.mem_cons, List.mem_singleton, List.not_mem_nil, or_false] at hmem1 hmem2
    have ha1 : a = 1 ∧ b = 2 := by
      rcases hmem2 with h2 | h2 <;> rcases hmem1 with h1 | h1 <;> omega
    refine ⟨by rw [ha1.1, ha1.2], ?_⟩
    rw [ha1.1, ha1.2]
    simp

/-- Witness for C2, applying the universally quantified part of the theorem
at the conforming run exhibited by its first conjunct. -/
theorem median_mutates_state_witness : ([1, 2] : List Int) ≠ [2, 1] :=
(median_mutates_state.2 (.ok 1) [1, 2] median_mutates_state.1).2

theorem getD_zipWith (f : Int → Int → Int) (a b : List Int) (i : Nat)
    (ha : i < a.length) (hb : i < b.length) :
    (List.zipWith f a b).getD i 0 = f (a.getD i 0) (b.getD i 0) := by
have hz : i < (List.zipWith f a b).length := by
  rw [List.length_zipWith]
  omega
rw [List.getD_eq_getElem _ _ hz, List.getD_eq_getElem _ _ ha,
  List.getD_eq_getElem _ _ hb]
simp

/-- C6: on a size mismatch both vector addition and subtraction fail with
invalid-argument before touching either operand; on matching sizes the
elementwise sums (respectively differences) are written into the left
operand's own storage — the mutated left operand, which is exactly the value
the C++ method returns a reference to — while the right operand is left
unchanged. -/
theorem addSub_mutating_semantics (a b : List Int) :
    (a.length ≠ b.length →
      addOp a b = (.error .invalidArgument, a, b) ∧
      subOp a b = (.error .invalidArgument, a, b)) ∧
    (a.length = b.length →
      (addOp a b).1 = .ok () ∧
      (addOp a b).2.2 = b ∧
      ((addOp a b).2.1).length = a.length ∧
      (∀ i, i < a.length →
        ((addOp a b).2.1).getD i 0 = a.getD i 0 + b.getD i 0) ∧
      (subOp a b).1 = .ok () ∧
      (subOp a b).2.2 = b ∧
      ((subOp a b).2.1).length = a.length ∧
      (∀ i, i < a.length →
        ((subOp a b).2.1).getD i 0 = a.getD i 0 - b.getD i 0)) := by
constructor
· intro h
  constructor
  · simp [addOp, h]
  · simp [subOp, h]
· intro h
  have hadd : addOp a b = (.ok (), List.zipWith (· + ·) a b, b) := by
    simp [addOp, h]
  have hsub : subOp a b = (.ok (), List.zipWith (· - ·) a b, b) := by
    simp [subOp, h]
  rw [hadd, hsub]
  refine ⟨rfl, rfl, ?_, ?_, rfl, rfl, ?_, ?_⟩
  · rw [List.length_zipWith]
    omega
  · intro i hi
    exact getD_zipWith (· + ·) a b i hi (by omega)
  · rw [List.length_zipWith]
    omega
  · intro i hi
    exact getD_zipWith (· - ·) a b i hi (by omega)

/-- Witness for C6, applying the theorem at the matching-size pair
([1, 2], [3, 4]) and at the mismatched pair ([5], []). -/
theorem addSub_mutating_semantics_witness :
    (addOp [1, 2] [3, 4]).1 = .ok () ∧
    (addOp [1, 2] [3, 4]).2.2 = [3, 4] ∧
    (addOp [1, 2] [3, 4]).2.1.getD 0 0 = 4 ∧
    (subOp [1, 2] [3, 4]).2.1.getD 1 0 = -2 ∧
    addOp [5] [] = (.error .invalidArgument, [5], []) := by
have h := (addSub_mutating_semantics [1, 2] [3, 4]).2 rfl
have hm := (addSub_mutating_semantics [5] []).1 (by decide)
exact ⟨h.1, h.2.1, h.2.2.2.1 0 (by decide), h.2.2.2.2.2.2.2 1 (by decide), hm.1⟩

theorem resize_grow_one (l : List Int) :
    resize l (l.length + 1) 0 = l ++ [0] := by
unfold resize
rw [if_neg (by omega)]
rw [List.take_of_length_le (by omega)]
have h1 : l.length + 1 - l.length = 1 := by omega
rw [h1]
rfl

theorem insert1_eq (l : List Int) (pos : Nat) (v : Int) (h : pos ≤ l.length) :
    insert1 l pos v = .ok (l.take pos ++ v :: l.drop pos) := by
unfold insert1
rw [if_neg (by omega)]
rw [resize_grow_one]
unfold shiftRightOne
have hlen : (l ++ [0]).length = l.length + 1 := by simp
rw [hlen]
have h1 : l.length + 1 - 1 - pos = l.length - pos := by omega
rw [h1]
have hdrop : (l ++ [0]).drop pos = l.drop pos ++ [0] := by
  rw [List.drop_append_eq_append_drop]
  have h2 : pos - l.length = 0 := by omega
  rw [h2]
  rfl
rw [hdrop]
have htake2 : (l.drop pos ++ [0]).take (l.length - pos) = l.drop pos :=
  List.take_left' (by simp)
rw [htake2]
rcases Nat.lt_or_ge pos l.length with hlt | hge
· have htake1 : (l ++ [0]).take (pos + 1) = l.take (pos + 1) :=
    List.take_append_of_le_length (by omega)
  rw [htake1]
  have hM : pos < (l.take (pos + 1) ++ l.drop pos).length := by
    simp
    omega
  rw [List.set_eq_take_cons_drop v hM]
  have hMtake : (l.take (pos + 1) ++ l.drop pos).take pos = l.take pos := by
    rw [List.take_append_of_le_length (by simp; omega), List.take_take]
    have : min pos (pos + 1) = pos := by omega
    rw [this]
  have hMdrop : (l.take (pos + 1) ++ l.drop pos).drop (pos + 1) = l.drop pos :=
    List.drop_left' (by simp; omega)
  rw [hMtake, hMdrop]
· have hpos : pos = l.length := by omega
  subst hpos
  rw [List.take_of_length_le (by simp)]
  have hd : l.drop l.length = [] := by simp
  rw [hd, List.append_nil]
  have hM : l.length < (l ++ [0]).length := by simp
  rw [List.set_eq_take_cons_drop v hM]
  rw [List.take_left' rfl]
  have hdr : (l ++ [0]).drop (l.length + 1) = [] := by simp
  rw [hdr]
  rw [List.take_of_length_le (le_refl _)]

theorem erase1_eq (l : List Int) (pos : Nat) (h : pos < l.length) :
    erase1 l pos = .ok (l.take pos ++ l.drop (pos + 1)) := by
unfold erase1
rw [if_neg (by omega)]
unfold shiftLeftOne resize
have hlen : (l.take pos ++ (l.drop (pos + 1) ++ l.drop (l.length - 1))).length
    = l.length := by
  simp
  omega
rw [List.append_assoc] at *
rw [if_neg (by rw [hlen]; omega)]
have hrep : l.length - 1 - (l.take pos ++ (l.drop (pos + 1) ++
    l.drop (l.length - 1))).length = 0 := by
  rw [hlen]
  omega
rw [hrep]
rw [List.replicate_zero, List.append_nil]
rw [List.take_append_eq_append_take]
have ht1 : List.take (l.length - 1) (List.take pos l) = List.take pos l :=
  List.take_of_length_le (by simp; omega)
have hsub : l.length - 1 - (l.take pos).length = l.length - 1 - pos := by
  simp
  omega
have ht2 : List.take (l.length - 1 - pos)
    (List.drop (pos + 1) l ++ List.drop (l.length - 1) l) =
    List.drop (pos + 1) l :=
  List.take_left' (by simp; omega)
rw [ht1, hsub, ht2]

/-- C7: for every valid position (pos at most the size), inserting a value at
pos and then erasing position pos restores the original element sequence. -/
theorem insert_erase_roundTrip (l : List Int) (pos : Nat) (v : Int)
    (h : pos ≤ l.length) :
    (insert1 l pos v).bind (fun m => erase1 m pos) = .ok l := by
rw [insert1_eq l pos v h]
have hm : pos < (l.take pos ++ v :: l.drop pos).length := by
  simp
  omega
have he := erase1_eq (l.take pos ++ v :: l.drop pos) pos hm
have htake : (l.take pos ++ v :: l.drop pos).take pos = l.take pos :=
  List.take_left' (by simp; omega)
have hdrop : (l.take pos ++ v :: l.drop pos).drop (pos + 1) = l.drop pos := by
  rw [List.drop_append_eq_append_drop]
  have h1 : (l.take pos).length = pos := by simp; omega
  rw [List.drop_eq_nil_of_le (by omega)]
  rw [h1]
  have h2 : pos + 1 - pos = 1 := by omega
  rw [h2]
  rfl
rw [htake, hdrop] at he
rw [List.take_append_drop] at he
show Except.bind (Except.ok (l.take pos ++ v :: l.drop pos))
  (fun m => erase1 m pos) = .ok l
rw [Except.bind]
exact he

/-- Witness for C7, the spec's concrete scenario shape: insert 9 at position
1 of [10, 20, 30] and erase position 1 again. -/
theorem insert_erase_roundTrip_witness :
    (insert1 [10, 20, 30] 1 9).bind (fun m => erase1 m 1) = .ok [10, 20, 30] :=
insert_erase_roundTrip [10, 20, 30] 1 9 (by decide)

theorem getD_map_range (n : Nat) (f : Nat → Int) (i : Nat) (h : i < n) :
    ((List.range n).map f).getD i 0 = f i := by
have hl : i < ((List.range n).map f).length := by
  simp
  omega
rw [List.getD_eq_getElem _ _ hl]
simp

/-- C8: cross_product fails with invalid-argument when the sizes differ or
the size is below 3; otherwise it returns a vector of the same size whose
first three components follow the standard 3-D formula and whose components
at indices i at least 3 follow the cyclic pattern
lhs[(i+1) % n] * rhs[(i+2) % n] - lhs[(i+2) % n] * rhs[(i+1) % n]; in
particular the cross product of [1, 0, 0] and [0, 1, 0] is [0, 0, 1]. -/
theorem crossProd_spec :
    (∀ lhs rhs : List Int,
      ((lhs.length ≠ rhs.length ∨ lhs.length < 3) →
        crossProd lhs rhs = .error .invalidArgument) ∧
      (lhs.length = rhs.length → 3 ≤ lhs.length →
        (crossProd lhs rhs).toOption.isSome = true ∧
        ∀ w, crossProd lhs rhs = .ok w →
          w.length = lhs.length ∧
          w.getD 0 0 =
            lhs.getD 1 0 * rhs.getD 2 0 - lhs.getD 2 0 * rhs.getD 1 0 ∧
          w.getD 1 0 =
            lhs.getD 2 0 * rhs.getD 0 0 - lhs.getD 0 0 * rhs.getD 2 0 ∧
          w.getD 2 0 =
            lhs.getD 0 0 * rhs.getD 1 0 - lhs.getD 1 0 * rhs.getD 0 0 ∧
          (∀ i, 3 ≤ i → i < lhs.length →
            w.getD i 0 =
              lhs.getD ((i + 1) % lhs.length) 0 *
                rhs.getD ((i + 2) % lhs.length) 0 -
              lhs.getD ((i + 2) % lhs.length) 0 *
                rhs.getD ((i + 1) % lhs.length) 0))) ∧
    crossProd [1, 0, 0] [0, 1, 0] = .ok [0, 0, 1] := by
constructor
· intro lhs rhs
  constructor
  · intro hOr
    rw [crossProd, if_pos hOr]
  · intro heq h3
    have hne : ¬ (lhs.length ≠ rhs.length ∨ lhs.length < 3) := by
      push_neg
      omega
    rw [crossProd, if_neg hne]
    refine ⟨rfl, ?_⟩
    intro w hw
    have hw2 : (List.range lhs.length).map (fun i =>
        if i = 0 then lhs.getD 1 0 * rhs.getD 2 0 - lhs.getD 2 0 * rhs.getD 1 0
        else if i = 1 then
          lhs.getD 2 0 * rhs.getD 0 0 - lhs.getD 0 0 * rhs.getD 2 0
        else if i = 2 then
          lhs.getD 0 0 * rhs.getD 1 0 - lhs.getD 1 0 * rhs.getD 0 0
        else lhs.getD ((i + 1) % lhs.length) 0 *
            rhs.getD ((i + 2) % rhs.length) 0 -
          lhs.getD ((i + 2) % lhs.length) 0 *
            rhs.getD ((i + 1) % rhs.length) 0) = w := by
      exact Except.ok.inj hw
    subst hw2
    refine ⟨by simp, ?_, ?_, ?_, ?_⟩
    · rw [getD_map_range _ _ 0 (by omega)]
      norm_num
    · rw [getD_map_range _ _ 1 (by omega)]
      norm_num
    · rw [getD_map_range _ _ 2 (by omega)]
      norm_num
    · intro i hi3 hilt
      rw [getD_map_range _ _ i (by omega)]
      rw [if_neg (by omega), if_neg (by omega), if_neg (by omega)]
      rw [heq]
· rfl

/-- Witness for C8, applying the theorem at the pair ([1, 0, 0], [0, 1, 0])
for the success case and at the undersized pair ([2, 3], [4, 5]) for the
error case. -/
theorem crossProd_spec_witness :
    (crossProd [1, 0, 0] [0, 1, 0]).toOption.isSome = true ∧
    ([0, 0, 1] : List Int).getD 2 0 =
      ([1, 0, 0] : List Int).getD 0 0 * ([0, 1, 0] : List Int).getD 1 0 -
      ([1, 0, 0] : List Int).getD 1 0 * ([0, 1, 0] : List Int).getD 0 0 ∧
    crossProd [2, 3] [4, 5] = .error .invalidArgument := by
have h := (crossProd_spec.1 [1, 0, 0] [0, 1, 0]).2 rfl (by norm_num)
have hw := h.2 [0, 0, 1] crossProd_spec.2
have he := (crossProd_spec.1 [2, 3] [4, 5]).1 (by norm_num)
exact ⟨h.1, hw.2.2.2.1, he⟩

/-- C9: on a non-empty vector, max() (and symmetrically min()) returns the
tie-set alternative exactly when the extreme value occurs more than once; a
returned tie-set holds exactly the positions whose value equals the
extremum, in increasing order; with a unique extremum the single (non-list)
alternative is returned, carrying the position of that occurrence.  On
[3, 1, 4, 1, 5], max() is the single result at position 4 and min() is the
tie-set of positions 1 and 3. -/
theorem max_min_tie_reporting :
    (∀ (x : Int) (xs : List Int),
      (∀ y ∈ x :: xs, y ≤ listMax x xs) ∧
      ((vmax (x :: xs)).isTies = true ↔
        1 < (x :: xs).count (listMax x xs)) ∧
      ((x :: xs).count (listMax x xs) = 1 →
        vmax (x :: xs) =
          .single (Int.ofNat ((x :: xs).indexOf (listMax x xs)))) ∧
      (∀ ps, vmax (x :: xs) = .ties ps →
        (∀ i, i ∈ ps ↔
          i < (x :: xs).length ∧ (x :: xs).getD i 0 = listMax x xs) ∧
        ps.Sorted (· < ·))) ∧
    (∀ (x : Int) (xs : List Int),
      (∀ y ∈ x :: xs, listMin x xs ≤ y) ∧
      ((vmin (x :: xs)).isTies = true ↔
        1 < (x :: xs).count (listMin x xs)) ∧
      ((x :: xs).count (listMin x xs) = 1 →
        vmin (x :: xs) =
          .single (Int.ofNat ((x :: xs).indexOf (listMin x xs)))) ∧
      (∀ ps, vmin (x :: xs) = .ties ps →
        (∀ i, i ∈ ps ↔
          i < (x :: xs).length ∧ (x :: xs).getD i 0 = listMin x xs) ∧
        ps.Sorted (· < ·))) ∧
    vmax [3, 1, 4, 1, 5] = .single 4 ∧
    vmin [3, 1, 4, 1, 5] = .ties [1, 3] := by
refine ⟨?_, ?_, by decide, by decide⟩
· intro x xs
  have hcnt : 1 ≤ (x :: xs).count (listMax x xs) :=
    List.one_le_count_iff.mpr (listMax_mem x xs)
  refine ⟨le_listMax x xs, ?_, ?_, ?_⟩
  · constructor
    · intro ht
      by_cases hc : (x :: xs).count (listMax x xs) = 1
      · simp [vmax, hc, ScanResult.isTies] at ht
      · omega
    · intro hgt
      have hc : ¬ (x :: xs).count (listMax x xs) = 1 := by omega
      simp [vmax, hc, ScanResult.isTies]
  · intro hc
    simp [vmax, hc]
  · intro ps hps
    by_cases hc : (x :: xs).count (listMax x xs) = 1
    · simp [vmax, hc] at hps
    · simp [vmax, hc] at hps
      subst hps
      exact ⟨fun i => mem_tiePositions (x :: xs) (listMax x xs) i,
        tiePositions_sorted (x :: xs) (listMax x xs)⟩
· intro x xs
  have hcnt : 1 ≤ (x :: xs).count (listMin x xs) :=
    List.one_le_count_iff.mpr (listMin_mem x xs)
  refine ⟨listMin_le x xs, ?_, ?_, ?_⟩
  · constructor
    · intro ht
      by_cases hc : (x :: xs).count (listMin x xs) = 1
      · simp [vmin, hc, ScanResult.isTies] at ht
      · omega
    · intro hgt
      have hc : ¬ (x :: xs).count (listMin x xs) = 1 := by omega
      simp [vmin, hc, ScanResult.isTies]
  · intro hc
    simp [vmin, hc]
  · intro ps hps
    by_cases hc : (x :: xs).count (listMin x xs) = 1
    · simp [vmin, hc] at hps
    · simp [vmin, hc] at hps
      subst hps
      exact ⟨fun i => mem_tiePositions (x :: xs) (listMin x xs) i,
        tiePositions_sorted (x :: xs) (listMin x xs)⟩

/-- Witness for C9, applying the min half of the theorem at the spec's
concrete vector [3, 1, 4, 1, 5], whose tie-set [1, 3] is checked at
position 1, with the tie hypothesis discharged by the theorem's own concrete
conjunct. -/
theorem max_min_tie_reporting_witness :
    (1 ∈ ([1, 3] : List Nat) ↔
      1 < ([3, 1, 4, 1, 5] : List Int).length ∧
      ([3, 1, 4, 1, 5] : List Int).getD 1 0 = listMin 3 [1, 4, 1, 5]) ∧
    ([1, 3] : List Nat).Sorted (· < ·) := by
have h := (max_min_tie_reporting.2.1 3 [1, 4, 1, 5]).2.2.2 [1, 3]
  max_min_tie_reporting.2.2.2
exact ⟨h.1 1, h.2⟩

end Vec
